import Mathlib

/-!
Shallow embedding of the FluxCache cache node (Go) for verification.

The entry store embeds `Cache.Set` / `Cache.Get` / `Cache.Delete` from
`cmd/cache-node/main.go`; the hash ring embeds `HashRing.AddNode`,
`HashRing.GetNode` and `HashRing.GetReplicas` from `pkg/cluster/cluster.go`;
the coordinator embeds the `handleSet` handler from `cmd/cache-node/main.go`.

Wall-clock reads (`time.Now()`) become explicit parameters (`nowUnixS` for
Unix seconds, `nowMs` for Unix milliseconds).  The SHA-1 derived 32-bit hash
`hashKey` is kept abstract as a function parameter `String → Int`: every
claim treated here is parametric in the concrete hash values.  Go maps
become association lists where a later insert overwrites the earlier binding
and a lookup of a missing key yields the zero value.
-/

namespace FluxCache

/-- `CacheItem` from `main.go`: value with expiration (Unix seconds, 0 = no
TTL) and the last-writer-wins timestamp in milliseconds.  The Go `interface{}`
value is opaque to the cache; it is modelled as a `String`. -/
structure CacheItem where
  value : String
  expiration : Int
  lastUpdated : Int
deriving DecidableEq

/-- A node's store (`Cache.store`, a `sync.Map`): key to resident item. -/
abbrev Store := List (String × CacheItem)

/-- Resident item under a key, if any. -/
def lookupStore (s : Store) (k : String) : Option CacheItem :=
  (s.find? (fun p => p.1 = k)).map Prod.snd

/-- `store.Store(key, item)`: bind `k` to `it`, replacing any resident item. -/
def storeInsert (s : Store) (k : String) (it : CacheItem) : Store :=
  (k, it) :: s.filter (fun p => ¬ p.1 = k)

/-- `store.Delete(key)`: unconditional removal. -/
def storeDelete (s : Store) (k : String) : Store :=
  s.filter (fun p => ¬ p.1 = k)

/-- Expiration computed by `Cache.Set`: `now_unix_s + ttl` when `ttl > 0`,
else `0` (no expiration). -/
def expOf (ttlSeconds nowUnixS : Int) : Int :=
  if ttlSeconds > 0 then nowUnixS + ttlSeconds else 0

/-- `Cache.Set` from `main.go`: last-writer-wins put.  Returns the new store
and `true` for `stored`, `false` for `rejected_stale`.  (The Go `for` loop
body returns on every path, so it is straight-line code.) -/
def cacheSet (s : Store) (key value : String) (ttlSeconds lastUpdated nowUnixS : Int) :
    Store × Bool :=
  let item : CacheItem := ⟨value, expOf ttlSeconds nowUnixS, lastUpdated⟩
  match lookupStore s key with
  | none => (storeInsert s key item, true)
  | some existing =>
    if lastUpdated ≥ existing.lastUpdated then (storeInsert s key item, true)
    else (s, false)

/-- `Cache.Get` from `main.go`: lazy TTL expiry on read.  Returns the
(possibly shrunk) store and the value when present and unexpired. -/
def cacheGet (s : Store) (key : String) (nowUnixS : Int) : Store × Option String :=
  match lookupStore s key with
  | none => (s, none)
  | some item =>
    if item.expiration > 0 ∧ nowUnixS > item.expiration then (storeDelete s key, none)
    else (s, some item.value)

/-- `Cache.Delete` from `main.go`. -/
def cacheDelete (s : Store) (key : String) : Store :=
  storeDelete s key

example : cacheSet [] "a" "v" 0 100 0 = ([("a", ⟨"v", 0, 100⟩)], true) := by decide

example :
    (cacheSet [("a", ⟨"v", 0, 100⟩)] "a" "w" 0 50 0).2 = false := by decide

example :
    cacheGet [("a", ⟨"v", 3, 100⟩)] "a" 5 = ([], none) := by decide

example :
    cacheGet [("a", ⟨"v", 3, 100⟩)] "a" 3 = ([("a", ⟨"v", 3, 100⟩)], some "v") := by decide

/-- `h.nodeMap[hash] = nodeID` on a Go map: later insert overwrites. -/
def mapInsert (nm : List (Int × String)) (h : Int) (v : String) : List (Int × String) :=
  (h, v) :: nm.filter (fun p => ¬ p.1 = h)

/-- `h.nodeMap[hash]` on a Go map: missing key yields the zero value `""`. -/
def mapLookup (nm : List (Int × String)) (h : Int) : String :=
  match nm.find? (fun p => p.1 = h) with
  | some p => p.2
  | none => ""

/-- `HashRing` from `cluster.go`: per-node virtual point count `replicas`,
the sorted point array `nodes` and the point-to-node map `nodeMap`. -/
structure HashRing where
  replicas : Nat
  nodes : List Int
  nodeMap : List (Int × String)
deriving DecidableEq

/-- The loop body of `AddNode`: for `i = 0 .. count-1`, append
`hashKey("<nodeID>#<i>")` to the point array and bind it to `nodeID` in the
map.  `addPoints hk nodeID count acc` is the state after `count` iterations. -/
def addPoints (hk : String → Int) (nodeID : String) :
    Nat → List Int × List (Int × String) → List Int × List (Int × String)
  | 0, acc => acc
  | i + 1, acc =>
    let acc' := addPoints hk nodeID i acc
    let hv := hk (nodeID ++ "#" ++ toString i)
    (acc'.1 ++ [hv], mapInsert acc'.2 hv nodeID)

/-- `HashRing.AddNode`: insert `replicas` virtual points, then `sort.Ints`. -/
def addNode (hk : String → Int) (r : HashRing) (nodeID : String) : HashRing :=
  let p := addPoints hk nodeID r.replicas (r.nodes, r.nodeMap)
  { r with nodes := p.1.insertionSort (· ≤ ·), nodeMap := p.2 }

/-- `sort.Search(len(nodes), nodes[i] >= hash)`: smallest index whose point is
`≥ h`, or `nodes.length` when none is (the array is kept sorted, so the first
match is the smallest index). -/
def searchLB (nodes : List Int) (h : Int) : Nat :=
  (nodes.findIdx? (fun x => x ≥ h)).getD nodes.length

/-- The shared wrap-to-0 step of `GetNode` and `GetReplicas`. -/
def ringIdx (nodes : List Int) (h : Int) : Nat :=
  let i := searchLB nodes h
  if i = nodes.length then 0 else i

/-- `HashRing.GetNode` with the key already hashed: `""` on an empty ring,
else the node owning the nearest clockwise point. -/
def getNode (r : HashRing) (h : Int) : String :=
  if r.nodes = [] then ""
  else mapLookup r.nodeMap (r.nodes.getD (ringIdx r.nodes h) 0)

/-- The `GetReplicas` walk: `for i := 0; len(replicas) < k && i < len(nodes)*2;
i++` appending node IDs not already seen.  `fuel` is `2*|nodes| - i`, which
bounds the remaining iterations, so the recursion is structural. -/
def replicasLoop (nodes : List Int) (nm : List (Int × String)) (idx k : Nat) :
    Nat → Nat → List String → List String
  | 0, _, acc => acc
  | fuel + 1, i, acc =>
    if acc.length < k ∧ i < nodes.length * 2 then
      let nodeID := mapLookup nm (nodes.getD ((idx + i) % nodes.length) 0)
      let acc' := if nodeID ∈ acc then acc else acc ++ [nodeID]
      replicasLoop nodes nm idx k fuel (i + 1) acc'
    else acc

/-- `HashRing.GetReplicas` with the key already hashed: distinct node IDs
clockwise from the key's position, capped at `k` IDs or `2·|nodes|` walked
points.  (Go's `replicaCount <= 0` guard becomes `k = 0` on `Nat`.) -/
def getReplicas (r : HashRing) (h : Int) (k : Nat) : List String :=
  if r.nodes = [] ∨ k = 0 then []
  else replicasLoop r.nodes r.nodeMap (ringIdx r.nodes h) k (r.nodes.length * 2) 0 []

example :
    getReplicas ⟨1, [10, 20], [(10, "a"), (20, "b")]⟩ 15 2 = ["b", "a"] := by decide

example :
    getNode ⟨1, [10, 20], [(10, "a"), (20, "b")]⟩ 15 = "b" := by decide

example :
    getNode ⟨1, [10, 20], [(10, "a"), (20, "b")]⟩ 25 = "a" := by decide

/-- `NodeHealthTracker.IsNodeHealthy`: `healthy, ok := status[id]; ok && healthy`.
The status map is an association list; `find?` returns its unique binding. -/
def isNodeHealthy (st : List (String × Bool)) (nodeID : String) : Bool :=
  match st.find? (fun p => p.1 = nodeID) with
  | some p => p.2
  | none => false

/-- The coordinator's per-node health test in `handleSet` / `handleGet` /
`handleDelete`: `clust.Health == nil || clust.Health.IsNodeHealthy(node.ID)`. -/
def treatedHealthy (health : Option (List (String × Bool))) (nodeID : String) : Bool :=
  match health with
  | none => true
  | some st => isNodeHealthy st nodeID

/-- `cluster.Node`. -/
structure Node where
  id : String
  addr : String
deriving DecidableEq

/-- `cluster.Cluster`: node table, ring, self ID and the optional health
tracker (`nil` until `StartHealthMonitor` runs). -/
structure Cluster where
  nodes : List Node
  ring : HashRing
  selfID : String
  health : Option (List (String × Bool))

/-- `Cluster.GetResponsibleNodes`: ring replicas resolved through the node
table, silently skipping unknown IDs. -/
def getResponsibleNodes (c : Cluster) (hashOfKey : Int) (replicaCount : Nat) : List Node :=
  (getReplicas c.ring hashOfKey replicaCount).filterMap
    (fun nodeID => c.nodes.find? (fun n => n.id = nodeID))

/-- The decoded body of a `/set` request. -/
structure SetRequest where
  key : String
  value : String
  ttl : Int
  lastUpdated : Int
deriving DecidableEq

/-- The responses `handleSet` can produce (after a successful decode). -/
inductive SetResponse where
  | badRequest (msg : String)
  | noHealthyReplicas
  | noContent
  | conflict
deriving DecidableEq

/-- Result of one `handleSet` call: HTTP-level response, the store after the
call, and the forwarded peer writes (`forwardRequest(node, "/set", …)`). -/
structure SetOutcome where
  response : SetResponse
  store : Store
  forwards : List (Node × SetRequest)
deriving DecidableEq

/-- `if req.LastUpdated == 0 { req.LastUpdated = now_ms }`. -/
def adjustReq (req : SetRequest) (nowMs : Int) : SetRequest :=
  if req.lastUpdated = 0 then { req with lastUpdated := nowMs } else req

/-- The `replicas` list computed by `handleSet`. -/
def replicasOf (c : Cluster) (hk : String → Int) (key : String) (replicaCount : Nat) :
    List Node :=
  getResponsibleNodes c (hk key) replicaCount

/-- The `healthyReplicas` list computed by `handleSet`'s loop. -/
def healthyReplicasOf (c : Cluster) (hk : String → Int) (key : String) (replicaCount : Nat) :
    List Node :=
  (replicasOf c hk key replicaCount).filter (fun n => treatedHealthy c.health n.id)

/-- The `isReplica` flag computed by `handleSet`'s loop. -/
def selfIsReplicaOf (c : Cluster) (hk : String → Int) (key : String) (replicaCount : Nat) :
    Bool :=
  (replicasOf c hk key replicaCount).any (fun n => n.id = c.selfID)

/-- `handleSet` from `main.go`, after a successful JSON decode: key check,
timestamp defaulting, replica selection, health filtering, then either pure
coordination (fan-out, no local write) or the local last-writer-wins put
(with no fan-out). -/
def handleSet (c : Cluster) (hk : String → Int) (store : Store) (req0 : SetRequest)
    (nowMs nowUnixS : Int) (replicaCount : Nat) : SetOutcome :=
  if req0.key = "" then ⟨.badRequest "key required", store, []⟩
  else
    let req := adjustReq req0 nowMs
    let healthyReplicas := healthyReplicasOf c hk req.key replicaCount
    let isReplica := selfIsReplicaOf c hk req.key replicaCount
    if healthyReplicas = [] then ⟨.noHealthyReplicas, store, []⟩
    else if ¬ isReplica then
      ⟨.noContent, store,
        (healthyReplicas.filter (fun n => ¬ n.id = c.selfID)).map (fun n => (n, req))⟩
    else
      let res := cacheSet store req.key req.value req.ttl req.lastUpdated nowUnixS
      if res.2 then ⟨.noContent, res.1, []⟩
      else ⟨.conflict, store, []⟩

/-- One recorded put on a single store: arguments plus the wall clock at the
moment of the call. -/
structure PutOp where
  value : String
  ttl : Int
  ts : Int
  now : Int
deriving DecidableEq

/-- Apply a sequence of puts to one key of one store, in order. -/
def applyPuts (k : String) (s : Store) (ops : List PutOp) : Store :=
  ops.foldl (fun st op => (cacheSet st k op.value op.ttl op.ts op.now).1) s

/-- One store operation on a fixed key, with its wall-clock second. -/
inductive CacheOp where
  | put (v : String) (ttl ts now : Int)
  | get (now : Int)
  | del
deriving DecidableEq

/-- The store after one operation on key `k` (the store component of the
corresponding `Cache` method). -/
def stepOp (k : String) (s : Store) : CacheOp → Store
  | .put v ttl ts now => (cacheSet s k v ttl ts now).1
  | .get now => (cacheGet s k now).1
  | .del => cacheDelete s k

/-- The store after a sequence of operations on key `k`. -/
def runOps (k : String) (s : Store) (ops : List CacheOp) : Store :=
  ops.foldl (stepOp k) s

/-! ### Store lemmas -/

theorem lookupStore_storeInsert (s : Store) (k : String) (it : CacheItem) :
    lookupStore (storeInsert s k it) k = some it := by
  simp [lookupStore, storeInsert]

theorem lookupStore_storeDelete (s : Store) (k : String) :
    lookupStore (storeDelete s k) k = none := by
  have hfind : (storeDelete s k).find? (fun p => p.1 = k) = none := by
    rw [List.find?_eq_none]
    intro x hx
    have hmem := List.of_mem_filter hx
    simpa using hmem
  simp [lookupStore, hfind]

/-- `Cache.Set` either rejects a strictly older write and leaves the store
untouched, or stores the incoming item. -/
theorem cacheSet_cases (s : Store) (k v : String) (ttl ts now : Int) :
    (∃ e, lookupStore s k = some e ∧ ts < e.lastUpdated
      ∧ cacheSet s k v ttl ts now = (s, false))
    ∨ ((∀ e, lookupStore s k = some e → e.lastUpdated ≤ ts)
      ∧ cacheSet s k v ttl ts now = (storeInsert s k ⟨v, expOf ttl now, ts⟩, true)) := by
  unfold cacheSet
  cases hl : lookupStore s k with
  | none =>
    right
    refine ⟨fun e he => by simp [hl] at he, rfl⟩
  | some e =>
    by_cases hts : ts ≥ e.lastUpdated
    · right
      refine ⟨fun e' he' => ?_, by simp [hts]⟩
      cases he'
      exact hts
    · left
      exact ⟨e, rfl, by omega, by simp [hts]⟩

theorem applyPuts_cons (k : String) (s : Store) (o : PutOp) (ops : List PutOp) :
    applyPuts k s (o :: ops) = applyPuts k (cacheSet s k o.value o.ttl o.ts o.now).1 ops := rfl

theorem applyPuts_append (k : String) (s : Store) (l₁ l₂ : List PutOp) :
    applyPuts k s (l₁ ++ l₂) = applyPuts k (applyPuts k s l₁) l₂ :=
  List.foldl_append _ _ _ _

/-- Along any put sequence whose timestamps are all `≤ B`, a resident
timestamp bounded by `B` stays bounded by `B`. -/
theorem applyPuts_ts_le (k : String) (B : Int) :
    ∀ (l : List PutOp) (s : Store), (∀ x ∈ l, x.ts ≤ B) →
      (∀ e, lookupStore s k = some e → e.lastUpdated ≤ B) →
      ∀ e, lookupStore (applyPuts k s l) k = some e → e.lastUpdated ≤ B := by
  intro l
  induction l with
  | nil => intro s _ hs e he; exact hs e he
  | cons o os ih =>
    intro s hl hs e he
    rw [applyPuts_cons] at he
    refine ih _ (fun x hx => hl x (List.mem_cons_of_mem _ hx)) ?_ e he
    intro e' he'
    rcases cacheSet_cases s k o.value o.ttl o.ts o.now with ⟨e₀, _, _, heq⟩ | ⟨_, heq⟩
    · rw [heq] at he'
      exact hs e' he'
    · rw [heq, lookupStore_storeInsert] at he'
      cases he'
      exact hl o (List.mem_cons_self _ _)

/-- Puts that are all strictly older than the resident timestamp leave the
store unchanged. -/
theorem applyPuts_all_stale (k : String) (E : CacheItem) :
    ∀ (l : List PutOp) (s : Store), lookupStore s k = some E →
      (∀ x ∈ l, x.ts < E.lastUpdated) → applyPuts k s l = s := by
  intro l
  induction l with
  | nil => intro s _ _; rfl
  | cons o os ih =>
    intro s hE hl
    have hrej : cacheSet s k o.value o.ttl o.ts o.now = (s, false) := by
      rcases cacheSet_cases s k o.value o.ttl o.ts o.now with ⟨e₀, he₀, hlt, heq⟩ | ⟨hge, heq⟩
      · exact heq
      · have h1 := hge E hE
        have h2 := hl o (List.mem_cons_self _ _)
        omega
    rw [applyPuts_cons, hrej]
    exact ih s hE (fun x hx => hl x (List.mem_cons_of_mem _ hx))

/-- **C2.** A put on a key with no resident entry stores and returns
`stored`; on a resident entry it stores and returns `stored` iff the incoming
`last_updated_ms` is `≥` the resident one, otherwise it leaves the store
untouched and returns `rejected_stale`.  Consequently, for a put sequence
`l₁ ++ o :: l₂` on an initially absent key in which `o` carries the maximum
timestamp and every later put is strictly older, the final resident entry is
exactly `o`'s value with `o`'s timestamp (ties resolve to the last-arriving
write, which is `o`). -/
theorem put_lww_spec (k : String) (s : Store) (l₁ l₂ : List PutOp) (o : PutOp)
    (hnone : lookupStore s k = none)
    (hmax : ∀ x ∈ l₁, x.ts ≤ o.ts)
    (hlast : ∀ x ∈ l₂, x.ts < o.ts) :
    (∀ (s' : Store) (v : String) (ttl ts now : Int),
      (lookupStore s' k = none →
        cacheSet s' k v ttl ts now = (storeInsert s' k ⟨v, expOf ttl now, ts⟩, true))
      ∧ (∀ e, lookupStore s' k = some e →
          (ts ≥ e.lastUpdated →
            cacheSet s' k v ttl ts now = (storeInsert s' k ⟨v, expOf ttl now, ts⟩, true))
          ∧ (ts < e.lastUpdated → cacheSet s' k v ttl ts now = (s', false))))
    ∧ lookupStore (applyPuts k s (l₁ ++ o :: l₂)) k
        = some ⟨o.value, expOf o.ttl o.now, o.ts⟩ := by
  constructor
  · intro s' v ttl ts now
    constructor
    · intro hnone'
      unfold cacheSet
      rw [hnone']
    · intro e he
      constructor
      · intro hge
        unfold cacheSet
        rw [he]
        simp [hge]
      · intro hlt
        unfold cacheSet
        rw [he]
        simp
        omega
  · have hbound : ∀ e, lookupStore (applyPuts k s l₁) k = some e → e.lastUpdated ≤ o.ts := by
      refine applyPuts_ts_le k o.ts l₁ s hmax ?_
      intro e he
      rw [hnone] at he
      cases he
    have hstep :
        cacheSet (applyPuts k s l₁) k o.value o.ttl o.ts o.now
          = (storeInsert (applyPuts k s l₁) k ⟨o.value, expOf o.ttl o.now, o.ts⟩, true) := by
      rcases cacheSet_cases (applyPuts k s l₁) k o.value o.ttl o.ts o.now with
        ⟨e₀, he₀, hlt, _⟩ | ⟨_, heq⟩
      · have := hbound e₀ he₀
        omega
      · exact heq
    rw [applyPuts_append, applyPuts_cons, hstep]
    rw [applyPuts_all_stale k ⟨o.value, expOf o.ttl o.now, o.ts⟩ l₂ _
      (lookupStore_storeInsert _ _ _) hlast]
    exact lookupStore_storeInsert _ _ _

/-- Witness for `put_lww_spec` at a concrete three-put sequence with a tie on
the maximum timestamp resolved to the last arrival. -/
theorem put_lww_spec_witness :
    lookupStore [] "k" = none
    ∧ (∀ x ∈ [PutOp.mk "a" 0 5 0, PutOp.mk "b" 0 7 0], x.ts ≤ (PutOp.mk "c" 0 7 0).ts)
    ∧ (∀ x ∈ [PutOp.mk "d" 0 6 0], x.ts < (PutOp.mk "c" 0 7 0).ts)
    ∧ lookupStore (applyPuts "k" []
        ([PutOp.mk "a" 0 5 0, PutOp.mk "b" 0 7 0] ++ PutOp.mk "c" 0 7 0 :: [PutOp.mk "d" 0 6 0]))
        "k" = some ⟨"c", 0, 7⟩ :=
  ⟨by decide, by decide, by decide,
    (put_lww_spec "k" [] [PutOp.mk "a" 0 5 0, PutOp.mk "b" 0 7 0] [PutOp.mk "d" 0 6 0]
      (PutOp.mk "c" 0 7 0) (by decide) (by decide) (by decide)).2⟩

/-- **C3 counterexample.**  Replaying the identical write (`key`, `value`,
`last_updated_ms` all equal, `ttl = 10`) at a later wall-clock second is
*not* a no-op on the store: the accepted replay recomputes
`expiration = now + ttl`, moving it from `10` to `15`. -/
theorem replay_extends_expiration_counterexample :
    ¬ (cacheSet (cacheSet [] "k" "v" 10 100 0).1 "k" "v" 10 100 5).1
        = (cacheSet [] "k" "v" 10 100 0).1
    ∧ lookupStore (cacheSet [] "k" "v" 10 100 0).1 "k" = some ⟨"v", 10, 100⟩
    ∧ lookupStore (cacheSet (cacheSet [] "k" "v" 10 100 0).1 "k" "v" 10 100 5).1 "k"
        = some ⟨"v", 15, 100⟩ := by decide

/-- **C3 (amended).**  A replay of a write with identical `key`, `value` and
`last_updated_ms` is accepted whenever the original delivery was accepted,
and it never changes the visible `(value, last_updated_ms)` of the key; the
full store state is unchanged (a true no-op) whenever `ttl_seconds ≤ 0` or
the replay occurs at the same wall-clock second — an accepted replay with
`ttl_seconds > 0` at a later wall-clock second instead re-extends the
entry's expiration. -/
theorem replay_noop (s : Store) (k v : String) (ttl ts now now' : Int) :
    ((cacheSet s k v ttl ts now).2 = true →
      (cacheSet (cacheSet s k v ttl ts now).1 k v ttl ts now').2 = true)
    ∧ ((lookupStore (cacheSet (cacheSet s k v ttl ts now).1 k v ttl ts now').1 k).map
        (fun it => (it.value, it.lastUpdated))
      = (lookupStore (cacheSet s k v ttl ts now).1 k).map
          (fun it => (it.value, it.lastUpdated)))
    ∧ (ttl ≤ 0 →
        (cacheSet (cacheSet s k v ttl ts now).1 k v ttl ts now').1
          = (cacheSet s k v ttl ts now).1)
    ∧ (now' = now →
        (cacheSet (cacheSet s k v ttl ts now).1 k v ttl ts now').1
          = (cacheSet s k v ttl ts now).1) := by
  have hins : ∀ (m m' : Int),
      cacheSet (storeInsert s k ⟨v, m, ts⟩) k v ttl ts now'
        = (storeInsert s k ⟨v, expOf ttl now', ts⟩, true) := by
    intro m m'
    unfold cacheSet
    rw [lookupStore_storeInsert]
    simp [storeInsert, List.filter_filter]
  rcases cacheSet_cases s k v ttl ts now with ⟨e₀, he₀, hlt, heq⟩ | ⟨_, heq⟩
  · rw [heq]
    have hrej : cacheSet s k v ttl ts now' = (s, false) := by
      unfold cacheSet
      rw [he₀]
      simp
      omega
    refine ⟨fun hc => by simp at hc, by rw [hrej], fun _ => by rw [hrej], fun _ => by rw [hrej]⟩
  · rw [heq]
    have h2 := hins (expOf ttl now) (expOf ttl now')
    refine ⟨fun _ => by rw [h2], ?_, ?_, ?_⟩
    · rw [h2]
      simp [lookupStore_storeInsert]
    · intro httl
      rw [h2]
      have : expOf ttl now' = expOf ttl now := by
        unfold expOf
        rw [if_neg (by omega), if_neg (by omega)]
      rw [this]
    · intro hnow
      rw [h2, hnow]

/-- Witness for `replay_noop` at a concrete store and write. -/
theorem replay_noop_witness :
    ((cacheSet [] "k" "v" 0 100 7).2 = true →
      (cacheSet (cacheSet [] "k" "v" 0 100 7).1 "k" "v" 0 100 9).2 = true)
    ∧ ((lookupStore (cacheSet (cacheSet [] "k" "v" 0 100 7).1 "k" "v" 0 100 9).1 "k").map
        (fun it => (it.value, it.lastUpdated))
      = (lookupStore (cacheSet [] "k" "v" 0 100 7).1 "k").map
          (fun it => (it.value, it.lastUpdated)))
    ∧ ((0 : Int) ≤ 0 →
        (cacheSet (cacheSet [] "k" "v" 0 100 7).1 "k" "v" 0 100 9).1
          = (cacheSet [] "k" "v" 0 100 7).1)
    ∧ ((9 : Int) = 7 →
        (cacheSet (cacheSet [] "k" "v" 0 100 7).1 "k" "v" 0 100 9).1
          = (cacheSet [] "k" "v" 0 100 7).1) :=
  replay_noop [] "k" "v" 0 100 7 9

/-- An accepted put leaves exactly the incoming item resident under the key. -/
theorem cacheSet_stored_lookup (s : Store) (k v : String) (ttl ts now : Int)
    (h : (cacheSet s k v ttl ts now).2 = true) :
    lookupStore (cacheSet s k v ttl ts now).1 k = some ⟨v, expOf ttl now, ts⟩ := by
  rcases cacheSet_cases s k v ttl ts now with ⟨_, _, _, heq⟩ | ⟨_, heq⟩
  · rw [heq] at h
    simp at h
  · rw [heq]
    exact lookupStore_storeInsert _ _ _

/-- **C5.**  `get` on an absent key reports absent; after an accepted
`put(k, v, ttl = T, ts)` with `T > 0` at wall-clock second `t0 ≥ 0`, a `get`
at any second `t ≤ t0 + T` returns `v` and leaves the store unchanged, and a
`get` at any second `t > t0 + T` reports absent and removes the entry in the
same operation. -/
theorem get_ttl_spec (s : Store) (k v : String) (ttl ts t0 : Int)
    (hT : 0 < ttl) (ht0 : 0 ≤ t0)
    (hstored : (cacheSet s k v ttl ts t0).2 = true) :
    (∀ (s' : Store) (t : Int), lookupStore s' k = none → cacheGet s' k t = (s', none))
    ∧ (∀ t, t ≤ t0 + ttl →
        cacheGet (cacheSet s k v ttl ts t0).1 k t = ((cacheSet s k v ttl ts t0).1, some v))
    ∧ (∀ t, t0 + ttl < t →
        (cacheGet (cacheSet s k v ttl ts t0).1 k t).2 = none
        ∧ lookupStore (cacheGet (cacheSet s k v ttl ts t0).1 k t).1 k = none) := by
  have hexp : expOf ttl t0 = t0 + ttl := by
    unfold expOf
    rw [if_pos hT]
  have hres := cacheSet_stored_lookup s k v ttl ts t0 hstored
  rw [hexp] at hres
  refine ⟨?_, ?_, ?_⟩
  · intro s' t hnone
    unfold cacheGet
    rw [hnone]
  · intro t ht
    have hc : ¬ (t0 + ttl > 0 ∧ t > t0 + ttl) := by omega
    simp [cacheGet, hres, hc]
  · intro t ht
    have hc1 : t0 + ttl > 0 := by omega
    simp [cacheGet, hres, hc1, ht, lookupStore_storeDelete]

/-- Witness for `get_ttl_spec`: a 3-second TTL written at second 100 is
visible at second 103 and gone (entry removed) at second 104. -/
theorem get_ttl_spec_witness :
    (0 : Int) < 3 ∧ (0 : Int) ≤ 100 ∧ (cacheSet [] "k" "v" 3 50 100).2 = true
    ∧ ((∀ (s' : Store) (t : Int), lookupStore s' "k" = none → cacheGet s' "k" t = (s', none))
      ∧ (∀ t, t ≤ 100 + 3 →
          cacheGet (cacheSet [] "k" "v" 3 50 100).1 "k" t
            = ((cacheSet [] "k" "v" 3 50 100).1, some "v"))
      ∧ (∀ t, 100 + 3 < t →
          (cacheGet (cacheSet [] "k" "v" 3 50 100).1 "k" t).2 = none
          ∧ lookupStore (cacheGet (cacheSet [] "k" "v" 3 50 100).1 "k" t).1 "k" = none)) :=
  ⟨by decide, by decide, by decide,
    get_ttl_spec [] "k" "v" 3 50 100 (by decide) (by decide) (by decide)⟩

/-- `Cache.Get` either leaves the store unchanged or removes the key. -/
theorem cacheGet_fst (s : Store) (k : String) (now : Int) :
    (cacheGet s k now).1 = s ∨ (cacheGet s k now).1 = storeDelete s k := by
  unfold cacheGet
  split
  · left; rfl
  · split
    · right; rfl
    · left; rfl

/-- **C6 counterexample.**  `put ts=100`, then `delete`, then `put ts=50`:
the second put is accepted because the delete removed the resident entry, so
the store transitions from timestamp `100` to the older timestamp `50`. -/
theorem resident_ts_monotone_counterexample :
    lookupStore (runOps "k" [] [CacheOp.put "a" 0 100 0]) "k" = some ⟨"a", 0, 100⟩
    ∧ lookupStore (runOps "k" [] [CacheOp.put "a" 0 100 0, CacheOp.del,
        CacheOp.put "b" 0 50 0]) "k" = some ⟨"b", 0, 50⟩
    ∧ (50 : Int) < 100 := by decide

/-- **C6 (amended).**  The resident `last_updated_ms` of a key is monotonic
along any sequence of put, get and delete operations *during which the key
stays resident*: if the key is resident at every intermediate state (so no
delete and no expiry-triggered removal hits it), any later resident
timestamp is `≥` any earlier one.  (A delete or a lazy-expiry removal ends
residency, after which an older write is accepted afresh.) -/
theorem resident_ts_monotone (k : String) (ops : List CacheOp) :
    ∀ (s : Store) (e e' : CacheItem),
      lookupStore s k = some e →
      (∀ n, n ≤ ops.length → ¬ lookupStore (runOps k s (ops.take n)) k = none) →
      lookupStore (runOps k s ops) k = some e' →
      e.lastUpdated ≤ e'.lastUpdated := by
  induction ops with
  | nil =>
    intro s e e' h0 _ hfin
    simp only [runOps, List.foldl_nil] at hfin
    rw [h0] at hfin
    cases hfin
    exact le_refl _
  | cons op rest ih =>
    intro s e e' h0 hstay hfin
    have hs₁ : ¬ lookupStore (stepOp k s op) k = none := by
      have h := hstay 1 (by simp)
      simpa [runOps] using h
    obtain ⟨e₁, he₁⟩ : ∃ e₁, lookupStore (stepOp k s op) k = some e₁ := by
      cases hcase : lookupStore (stepOp k s op) k with
      | none => exact absurd hcase hs₁
      | some x => exact ⟨x, rfl⟩
    have hle : e.lastUpdated ≤ e₁.lastUpdated := by
      cases op with
      | put v ttl ts now =>
        rcases cacheSet_cases s k v ttl ts now with ⟨e₀, he₀, hlt, heq⟩ | ⟨hge, heq⟩
        · have he₁' : lookupStore s k = some e₁ := by
            simpa [stepOp, heq] using he₁
          rw [h0] at he₁'
          cases he₁'
          exact le_refl _
        · have he₁' : lookupStore (storeInsert s k ⟨v, expOf ttl now, ts⟩) k = some e₁ := by
            simpa [stepOp, heq] using he₁
          rw [lookupStore_storeInsert] at he₁'
          cases he₁'
          exact hge e h0
      | get now =>
        rcases cacheGet_fst s k now with hg | hg
        · have he₁' : lookupStore s k = some e₁ := by
            simpa [stepOp, hg] using he₁
          rw [h0] at he₁'
          cases he₁'
          exact le_refl _
        · exfalso
          apply hs₁
          simpa [stepOp, hg] using lookupStore_storeDelete s k
      | del =>
        exfalso
        apply hs₁
        simpa [stepOp, cacheDelete] using lookupStore_storeDelete s k
    refine le_trans hle (ih (stepOp k s op) e₁ e' he₁ ?_ ?_)
    · intro n hn
      have h := hstay (n + 1) (by simpa using hn)
      simpa [runOps, List.take_succ_cons] using h
    · simpa [runOps] using hfin

/-- Witness for `resident_ts_monotone` on a concrete residency-preserving
sequence. -/
theorem resident_ts_monotone_witness :
    lookupStore [("k", CacheItem.mk "a" 0 10)] "k" = some ⟨"a", 0, 10⟩
    ∧ (∀ n, n ≤ ([CacheOp.put "b" 0 20 0, CacheOp.get 0] : List CacheOp).length →
        ¬ lookupStore (runOps "k" [("k", CacheItem.mk "a" 0 10)]
            ([CacheOp.put "b" 0 20 0, CacheOp.get 0].take n)) "k" = none)
    ∧ lookupStore (runOps "k" [("k", CacheItem.mk "a" 0 10)]
        [CacheOp.put "b" 0 20 0, CacheOp.get 0]) "k" = some ⟨"b", 0, 20⟩
    ∧ (10 : Int) ≤ 20 :=
  ⟨by decide, by decide, by decide,
    resident_ts_monotone "k" [CacheOp.put "b" 0 20 0, CacheOp.get 0]
      [("k", CacheItem.mk "a" 0 10)] ⟨"a", 0, 10⟩ ⟨"b", 0, 20⟩ (by decide)
      (by decide) (by decide)⟩

/-! ### Coordinator lemmas -/

theorem adjustReq_key (r : SetRequest) (n : Int) : (adjustReq r n).key = r.key := by
  unfold adjustReq
  split <;> rfl

theorem adjustReq_value (r : SetRequest) (n : Int) : (adjustReq r n).value = r.value := by
  unfold adjustReq
  split <;> rfl

theorem adjustReq_ttl (r : SetRequest) (n : Int) : (adjustReq r n).ttl = r.ttl := by
  unfold adjustReq
  split <;> rfl

theorem adjustReq_ts_of_zero (r : SetRequest) (n : Int) (h : r.lastUpdated = 0) :
    (adjustReq r n).lastUpdated = n := by
  simp [adjustReq, h]

theorem handleSet_keyEmpty (c : Cluster) (hk : String → Int) (store : Store)
    (req0 : SetRequest) (nowMs nowUnixS : Int) (K : Nat) (h : req0.key = "") :
    handleSet c hk store req0 nowMs nowUnixS K = ⟨.badRequest "key required", store, []⟩ := by
  simp [handleSet, h]

theorem handleSet_noHealthy (c : Cluster) (hk : String → Int) (store : Store)
    (req0 : SetRequest) (nowMs nowUnixS : Int) (K : Nat) (h : ¬ req0.key = "")
    (hh : healthyReplicasOf c hk req0.key K = []) :
    handleSet c hk store req0 nowMs nowUnixS K = ⟨.noHealthyReplicas, store, []⟩ := by
  simp [handleSet, h, adjustReq_key, hh]

theorem handleSet_forward (c : Cluster) (hk : String → Int) (store : Store)
    (req0 : SetRequest) (nowMs nowUnixS : Int) (K : Nat) (h : ¬ req0.key = "")
    (hh : ¬ healthyReplicasOf c hk req0.key K = [])
    (hr : selfIsReplicaOf c hk req0.key K = false) :
    handleSet c hk store req0 nowMs nowUnixS K =
      ⟨.noContent, store,
        ((healthyReplicasOf c hk req0.key K).filter (fun n => ¬ n.id = c.selfID)).map
          (fun n => (n, adjustReq req0 nowMs))⟩ := by
  simp [handleSet, h, adjustReq_key, hh, hr]

theorem handleSet_replica (c : Cluster) (hk : String → Int) (store : Store)
    (req0 : SetRequest) (nowMs nowUnixS : Int) (K : Nat) (h : ¬ req0.key = "")
    (hh : ¬ healthyReplicasOf c hk req0.key K = [])
    (hr : selfIsReplicaOf c hk req0.key K = true) :
    handleSet c hk store req0 nowMs nowUnixS K =
      (if (cacheSet store req0.key req0.value req0.ttl
            (adjustReq req0 nowMs).lastUpdated nowUnixS).2
       then ⟨.noContent,
              (cacheSet store req0.key req0.value req0.ttl
                (adjustReq req0 nowMs).lastUpdated nowUnixS).1, []⟩
       else ⟨.conflict, store, []⟩) := by
  simp [handleSet, h, adjustReq_key, adjustReq_value, adjustReq_ttl, hh, hr]

/-- A resident item after a put is either the previously resident one or the
incoming item. -/
theorem cacheSet_lookup_mem (s : Store) (k v : String) (ttl ts now : Int) :
    ∀ it, lookupStore (cacheSet s k v ttl ts now).1 k = some it →
      lookupStore s k = some it ∨ it = ⟨v, expOf ttl now, ts⟩ := by
  intro it hit
  rcases cacheSet_cases s k v ttl ts now with ⟨_, _, _, heq⟩ | ⟨_, heq⟩
  · rw [heq] at hit
    exact Or.inl hit
  · rw [heq, lookupStore_storeInsert] at hit
    cases hit
    exact Or.inr rfl

/-- **C8.**  A node passes the coordinator's replica health filter iff the
health tracker has not been created (then every node passes) or the
tracker's map holds an entry for the node with value `true`; a node missing
from the map is treated as unhealthy; and the coordinator's
`healthyReplicas` list is exactly the replica list filtered by this test. -/
theorem healthy_filter_spec (c : Cluster) (hk : String → Int) (key : String) (K : Nat)
    (nodeID : String) :
    (treatedHealthy c.health nodeID = true ↔
      c.health = none ∨ ∃ st, c.health = some st ∧
        (st.find? (fun p => p.1 = nodeID)).map Prod.snd = some true)
    ∧ (∀ st, c.health = some st → st.find? (fun p => p.1 = nodeID) = none →
        treatedHealthy c.health nodeID = false)
    ∧ healthyReplicasOf c hk key K
        = (replicasOf c hk key K).filter (fun n => treatedHealthy c.health n.id) := by
  refine ⟨?_, ?_, rfl⟩
  · cases hh : c.health with
    | none => simp [treatedHealthy]
    | some st =>
      simp only [treatedHealthy, isNodeHealthy]
      cases hf : st.find? (fun p => p.1 = nodeID) with
      | none => simp [hf]
      | some p =>
        simp [hf]
        constructor
        · intro hp
          exact ⟨p.1, by rw [← hp]⟩
        · rintro ⟨a, ha⟩
          rw [ha]
  · intro st hst hf
    rw [hst]
    simp [treatedHealthy, isNodeHealthy, hf]

/-- Witness for `healthy_filter_spec`: a tracker that knows only `n1` treats
the unknown node `n2` as unhealthy. -/
theorem healthy_filter_spec_witness :
    (treatedHealthy (Cluster.mk [] ⟨1, [], []⟩ "n1" (some [("n1", true)])).health "n2" = true ↔
      (Cluster.mk [] ⟨1, [], []⟩ "n1" (some [("n1", true)])).health = none ∨
        ∃ st, (Cluster.mk [] ⟨1, [], []⟩ "n1" (some [("n1", true)])).health = some st ∧
          (st.find? (fun p => p.1 = "n2")).map Prod.snd = some true)
    ∧ (∀ st, (Cluster.mk [] ⟨1, [], []⟩ "n1" (some [("n1", true)])).health = some st →
        st.find? (fun p => p.1 = "n2") = none →
        treatedHealthy (Cluster.mk [] ⟨1, [], []⟩ "n1" (some [("n1", true)])).health "n2" = false)
    ∧ healthyReplicasOf (Cluster.mk [] ⟨1, [], []⟩ "n1" (some [("n1", true)])) (fun _ => 0) "k" 2
        = (replicasOf (Cluster.mk [] ⟨1, [], []⟩ "n1" (some [("n1", true)])) (fun _ => 0) "k" 2).filter
            (fun n => treatedHealthy
              (Cluster.mk [] ⟨1, [], []⟩ "n1" (some [("n1", true)])).health n.id) :=
  healthy_filter_spec (Cluster.mk [] ⟨1, [], []⟩ "n1" (some [("n1", true)])) (fun _ => 0) "k" 2 "n2"

/-- **C10.**  A write whose body supplies `last_updated = 0` has its
timestamp replaced by the coordinator's wall clock `nowMs` before applying
and forwarding; consequently (for a positive wall clock) no entry the
handler stores under the request key ever carries `last_updated_ms = 0`. -/
theorem zero_ts_replaced (c : Cluster) (hk : String → Int) (store : Store)
    (req0 : SetRequest) (nowMs nowUnixS : Int) (K : Nat) (hnow : 0 < nowMs) :
    (req0.lastUpdated = 0 →
      ∀ nd fr, (nd, fr) ∈ (handleSet c hk store req0 nowMs nowUnixS K).forwards →
        fr.lastUpdated = nowMs)
    ∧ (∀ it, lookupStore (handleSet c hk store req0 nowMs nowUnixS K).store req0.key
          = some it →
        lookupStore store req0.key = some it ∨
          (it.lastUpdated = (adjustReq req0 nowMs).lastUpdated ∧ ¬ it.lastUpdated = 0)) := by
  have hne : ¬ (adjustReq req0 nowMs).lastUpdated = 0 := by
    unfold adjustReq
    split
    · simp
      omega
    · next hz => simpa using hz
  by_cases hkey : req0.key = ""
  · rw [handleSet_keyEmpty c hk store req0 nowMs nowUnixS K hkey]
    exact ⟨fun _ _ _ h => absurd h (List.not_mem_nil _), fun it h => Or.inl h⟩
  by_cases hh : healthyReplicasOf c hk req0.key K = []
  · rw [handleSet_noHealthy c hk store req0 nowMs nowUnixS K hkey hh]
    exact ⟨fun _ _ _ h => absurd h (List.not_mem_nil _), fun it h => Or.inl h⟩
  by_cases hr : selfIsReplicaOf c hk req0.key K = true
  · rw [handleSet_replica c hk store req0 nowMs nowUnixS K hkey hh hr]
    split
    · refine ⟨fun _ _ _ h => absurd h (List.not_mem_nil _), fun it h => ?_⟩
      rcases cacheSet_lookup_mem store req0.key req0.value req0.ttl
          (adjustReq req0 nowMs).lastUpdated nowUnixS it h with hold | hnew
      · exact Or.inl hold
      · exact Or.inr ⟨by rw [hnew], by rw [hnew]; exact hne⟩
    · exact ⟨fun _ _ _ h => absurd h (List.not_mem_nil _), fun it h => Or.inl h⟩
  · rw [handleSet_forward c hk store req0 nowMs nowUnixS K hkey hh
      (Bool.not_eq_true _ |>.mp hr)]
    refine ⟨fun hz nd fr h => ?_, fun it h => Or.inl h⟩
    rcases List.mem_map.mp h with ⟨n, _, hn⟩
    cases hn
    exact adjustReq_ts_of_zero req0 nowMs hz

/-- Witness for `zero_ts_replaced` at a concrete single-node cluster. -/
theorem zero_ts_replaced_witness :
    (0 : Int) < 777
    ∧ (((SetRequest.mk "key1" "v" 0 0).lastUpdated = 0 →
        ∀ nd fr, (nd, fr) ∈ (handleSet
            (Cluster.mk [⟨"n1", "n1"⟩] ⟨1, [10], [(10, "n1")]⟩ "n1" none) (fun _ => 5)
            [] (SetRequest.mk "key1" "v" 0 0) 777 50 2).forwards →
          fr.lastUpdated = 777)
      ∧ (∀ it, lookupStore (handleSet
            (Cluster.mk [⟨"n1", "n1"⟩] ⟨1, [10], [(10, "n1")]⟩ "n1" none) (fun _ => 5)
            [] (SetRequest.mk "key1" "v" 0 0) 777 50 2).store
            (SetRequest.mk "key1" "v" 0 0).key = some it →
          lookupStore [] (SetRequest.mk "key1" "v" 0 0).key = some it ∨
            (it.lastUpdated = (adjustReq (SetRequest.mk "key1" "v" 0 0) 777).lastUpdated
              ∧ ¬ it.lastUpdated = 0))) :=
  ⟨by decide,
    zero_ts_replaced (Cluster.mk [⟨"n1", "n1"⟩] ⟨1, [10], [(10, "n1")]⟩ "n1" none)
      (fun _ => 5) [] (SetRequest.mk "key1" "v" 0 0) 777 50 2 (by decide)⟩

/-- **C7 counterexample.**  A write with `ttl = -5` on a two-node cluster
(coordinator `n1` is itself a replica, tracker not started) is *not*
rejected: the handler answers `204 No Content` and stores the entry with
`expiration = 0` (no TTL), modifying the store. -/
theorem negative_ttl_counterexample :
    (handleSet (Cluster.mk [⟨"n1", "n1"⟩, ⟨"n2", "n2"⟩] ⟨1, [10, 20], [(10, "n1"), (20, "n2")]⟩
        "n1" none) (fun _ => 5) [] (SetRequest.mk "keyA" "vA" (-5) 100) 999 50 2).response
      = SetResponse.noContent
    ∧ lookupStore (handleSet (Cluster.mk [⟨"n1", "n1"⟩, ⟨"n2", "n2"⟩]
        ⟨1, [10, 20], [(10, "n1"), (20, "n2")]⟩ "n1" none) (fun _ => 5) []
        (SetRequest.mk "keyA" "vA" (-5) 100) 999 50 2).store "keyA"
      = some ⟨"vA", 0, 100⟩
    ∧ lookupStore [] "keyA" = none := by decide

/-- **C7 (amended).**  A negative `ttl_seconds` is *not* rejected by the
coordinator: for a non-empty key the response is never `400 Bad Request`;
the write proceeds normally and, when the local put is accepted, the entry
is stored with `expiration = 0`, i.e. a negative TTL means "no TTL". -/
theorem negative_ttl_not_rejected (c : Cluster) (hk : String → Int) (store : Store)
    (req0 : SetRequest) (nowMs nowUnixS : Int) (K : Nat)
    (hkey : ¬ req0.key = "") (httl : req0.ttl < 0) :
    (∀ msg, ¬ (handleSet c hk store req0 nowMs nowUnixS K).response
        = SetResponse.badRequest msg)
    ∧ (∀ (s' : Store) (ts now : Int),
        (cacheSet s' req0.key req0.value req0.ttl ts now).2 = true →
        lookupStore (cacheSet s' req0.key req0.value req0.ttl ts now).1 req0.key
          = some ⟨req0.value, 0, ts⟩) := by
  constructor
  · intro msg
    by_cases hh : healthyReplicasOf c hk req0.key K = []
    · rw [handleSet_noHealthy c hk store req0 nowMs nowUnixS K hkey hh]
      simp
    by_cases hr : selfIsReplicaOf c hk req0.key K = true
    · rw [handleSet_replica c hk store req0 nowMs nowUnixS K hkey hh hr]
      split <;> simp
    · rw [handleSet_forward c hk store req0 nowMs nowUnixS K hkey hh
        (Bool.not_eq_true _ |>.mp hr)]
      simp
  · intro s' ts now hstored
    have h := cacheSet_stored_lookup s' req0.key req0.value req0.ttl ts now hstored
    have hz : expOf req0.ttl now = 0 := by
      unfold expOf
      rw [if_neg (by omega)]
    rw [hz] at h
    exact h

/-- Witness for `negative_ttl_not_rejected` at a concrete request. -/
theorem negative_ttl_not_rejected_witness :
    ¬ (SetRequest.mk "keyB" "vB" (-7) 3).key = ""
    ∧ (SetRequest.mk "keyB" "vB" (-7) 3).ttl < 0
    ∧ ((∀ msg, ¬ (handleSet (Cluster.mk [⟨"n1", "n1"⟩] ⟨1, [10], [(10, "n1")]⟩ "n1" none)
          (fun _ => 5) [] (SetRequest.mk "keyB" "vB" (-7) 3) 999 50 2).response
          = SetResponse.badRequest msg)
      ∧ (∀ (s' : Store) (ts now : Int),
          (cacheSet s' (SetRequest.mk "keyB" "vB" (-7) 3).key
            (SetRequest.mk "keyB" "vB" (-7) 3).value
            (SetRequest.mk "keyB" "vB" (-7) 3).ttl ts now).2 = true →
          lookupStore (cacheSet s' (SetRequest.mk "keyB" "vB" (-7) 3).key
            (SetRequest.mk "keyB" "vB" (-7) 3).value
            (SetRequest.mk "keyB" "vB" (-7) 3).ttl ts now).1
            (SetRequest.mk "keyB" "vB" (-7) 3).key
            = some ⟨(SetRequest.mk "keyB" "vB" (-7) 3).value, 0, ts⟩)) :=
  ⟨by decide, by decide,
    negative_ttl_not_rejected (Cluster.mk [⟨"n1", "n1"⟩] ⟨1, [10], [(10, "n1")]⟩ "n1" none)
      (fun _ => 5) [] (SetRequest.mk "keyB" "vB" (-7) 3) 999 50 2 (by decide) (by decide)⟩

/-- **C1 counterexample.**  Coordinator `n1` is itself a replica for the
key, the other replica `n2` is healthy, the local put stores — yet the
handler issues *no* forwards at all (the fan-out only exists in the
pure-coordinator branch), so the other healthy replica never receives the
write and replicas need not converge. -/
theorem replica_write_no_fanout_counterexample :
    (handleSet (Cluster.mk [⟨"n1", "n1"⟩, ⟨"n2", "n2"⟩]
        ⟨1, [10, 20], [(10, "n1"), (20, "n2")]⟩ "n1" none) (fun _ => 5) []
        (SetRequest.mk "keyC" "vC" 0 100) 999 50 2).response = SetResponse.noContent
    ∧ (handleSet (Cluster.mk [⟨"n1", "n1"⟩, ⟨"n2", "n2"⟩]
        ⟨1, [10, 20], [(10, "n1"), (20, "n2")]⟩ "n1" none) (fun _ => 5) []
        (SetRequest.mk "keyC" "vC" 0 100) 999 50 2).forwards = []
    ∧ healthyReplicasOf (Cluster.mk [⟨"n1", "n1"⟩, ⟨"n2", "n2"⟩]
        ⟨1, [10, 20], [(10, "n1"), (20, "n2")]⟩ "n1" none) (fun _ => 5) "keyC" 2
      = [⟨"n1", "n1"⟩, ⟨"n2", "n2"⟩]
    ∧ selfIsReplicaOf (Cluster.mk [⟨"n1", "n1"⟩, ⟨"n2", "n2"⟩]
        ⟨1, [10, 20], [(10, "n1"), (20, "n2")]⟩ "n1" none) (fun _ => 5) "keyC" 2 = true
    ∧ (cacheSet [] "keyC" "vC" 0 100 50).2 = true
    ∧ ¬ ("n2" = "n1") := by decide

/-- **C1 (amended).**  When the handling node is itself a replica for the
key and the local put returns `stored`, the coordinator replies `Accepted`
(`204`) but forwards the write to *no* node at all: the fan-out loop exists
only in the pure-coordinator branch, so the other healthy replicas are not
updated by this request. -/
theorem replica_write_no_fanout (c : Cluster) (hk : String → Int) (store : Store)
    (req0 : SetRequest) (nowMs nowUnixS : Int) (K : Nat)
    (hkey : ¬ req0.key = "")
    (hh : ¬ healthyReplicasOf c hk req0.key K = [])
    (hr : selfIsReplicaOf c hk req0.key K = true)
    (hstored : (cacheSet store req0.key req0.value req0.ttl
        (adjustReq req0 nowMs).lastUpdated nowUnixS).2 = true) :
    (handleSet c hk store req0 nowMs nowUnixS K).response = SetResponse.noContent
    ∧ (handleSet c hk store req0 nowMs nowUnixS K).forwards = [] := by
  rw [handleSet_replica c hk store req0 nowMs nowUnixS K hkey hh hr]
  rw [if_pos hstored]
  exact ⟨rfl, rfl⟩

/-- Witness for `replica_write_no_fanout` at the two-node cluster of the
counterexample. -/
theorem replica_write_no_fanout_witness :
    ¬ (SetRequest.mk "keyD" "vD" 0 100).key = ""
    ∧ ¬ healthyReplicasOf (Cluster.mk [⟨"n1", "n1"⟩, ⟨"n2", "n2"⟩]
        ⟨1, [10, 20], [(10, "n1"), (20, "n2")]⟩ "n1" none) (fun _ => 5)
        (SetRequest.mk "keyD" "vD" 0 100).key 2 = []
    ∧ selfIsReplicaOf (Cluster.mk [⟨"n1", "n1"⟩, ⟨"n2", "n2"⟩]
        ⟨1, [10, 20], [(10, "n1"), (20, "n2")]⟩ "n1" none) (fun _ => 5)
        (SetRequest.mk "keyD" "vD" 0 100).key 2 = true
    ∧ (cacheSet [] (SetRequest.mk "keyD" "vD" 0 100).key (SetRequest.mk "keyD" "vD" 0 100).value
        (SetRequest.mk "keyD" "vD" 0 100).ttl
        (adjustReq (SetRequest.mk "keyD" "vD" 0 100) 999).lastUpdated 50).2 = true
    ∧ ((handleSet (Cluster.mk [⟨"n1", "n1"⟩, ⟨"n2", "n2"⟩]
          ⟨1, [10, 20], [(10, "n1"), (20, "n2")]⟩ "n1" none) (fun _ => 5) []
          (SetRequest.mk "keyD" "vD" 0 100) 999 50 2).response = SetResponse.noContent
      ∧ (handleSet (Cluster.mk [⟨"n1", "n1"⟩, ⟨"n2", "n2"⟩]
          ⟨1, [10, 20], [(10, "n1"), (20, "n2")]⟩ "n1" none) (fun _ => 5) []
          (SetRequest.mk "keyD" "vD" 0 100) 999 50 2).forwards = []) :=
  ⟨by decide, by decide, by decide, by decide,
    replica_write_no_fanout (Cluster.mk [⟨"n1", "n1"⟩, ⟨"n2", "n2"⟩]
      ⟨1, [10, 20], [(10, "n1"), (20, "n2")]⟩ "n1" none) (fun _ => 5) []
      (SetRequest.mk "keyD" "vD" 0 100) 999 50 2 (by decide) (by decide) (by decide) (by decide)⟩

/-! ### Ring walk lemmas -/

/-- Reference form of the `GetReplicas` walk over the explicit list of
walked node IDs: append unseen IDs while fewer than `k` are collected. -/
def collectDistinct (k : Nat) : List String → List String → List String
  | acc, [] => acc
  | acc, x :: xs =>
    if acc.length < k then
      collectDistinct k (if x ∈ acc then acc else acc ++ [x]) xs
    else acc

theorem collectDistinct_of_full (k : Nat) (acc l : List String)
    (h : ¬ acc.length < k) : collectDistinct k acc l = acc := by
  cases l with
  | nil => rfl
  | cons x xs => simp [collectDistinct, h]

theorem findIdx?_some_bound {α : Type} (p : α → Bool) :
    ∀ (l : List α) (i j : Nat), List.findIdx? p l i = some j → j < i + l.length := by
  intro l
  induction l with
  | nil =>
    intro i j h
    simp at h
  | cons a as ih =>
    intro i j h
    rw [List.findIdx?_cons] at h
    by_cases hp : p a
    · rw [if_pos hp] at h
      cases h
      simp
    · rw [if_neg hp] at h
      have hb := ih (i + 1) j h
      simp only [List.length_cons]
      omega

theorem ringIdx_lt (nodes : List Int) (h : Int) (hne : ¬ nodes = []) :
    ringIdx nodes h < nodes.length := by
  have hpos : 0 < nodes.length := List.length_pos.mpr hne
  unfold ringIdx searchLB
  cases hf : nodes.findIdx? (fun x => x ≥ h) with
  | none => simpa using hpos
  | some j =>
    have hb := findIdx?_some_bound (fun x => x ≥ h) nodes 0 j hf
    simp only [Option.getD_some]
    split
    · exact hpos
    · omega

/-- The walked node IDs of `GetReplicas`, in walk order. -/
def walkIDs (nodes : List Int) (nm : List (Int × String)) (idx : Nat) : List String :=
  (List.range' 0 (nodes.length * 2)).map
    (fun j => mapLookup nm (nodes.getD ((idx + j) % nodes.length) 0))

/-- The loop of `GetReplicas` is exactly the reference walk consumption. -/
theorem replicasLoop_eq_collect (nodes : List Int) (nm : List (Int × String)) (idx k : Nat) :
    ∀ (fuel i : Nat) (acc : List String), nodes.length * 2 - i ≤ fuel →
      replicasLoop nodes nm idx k fuel i acc
        = collectDistinct k acc ((List.range' i (nodes.length * 2 - i)).map
            (fun j => mapLookup nm (nodes.getD ((idx + j) % nodes.length) 0))) := by
  intro fuel
  induction fuel with
  | zero =>
    intro i acc hf
    rw [Nat.le_zero.mp hf]
    rfl
  | succ fuel ih =>
    intro i acc hf
    by_cases hg : acc.length < k ∧ i < nodes.length * 2
    · have hlen : nodes.length * 2 - i = (nodes.length * 2 - (i + 1)) + 1 := by omega
      rw [hlen, List.range'_succ, List.map_cons]
      simp only [replicasLoop, collectDistinct]
      rw [if_pos hg, if_pos hg.1]
      exact ih (i + 1) _ (by omega)
    · simp only [replicasLoop]
      rw [if_neg hg]
      by_cases ha : acc.length < k
      · have hz : nodes.length * 2 - i = 0 := by omega
        rw [hz]
        rfl
      · exact (collectDistinct_of_full _ _ _ ha).symm

theorem getReplicas_eq_collect (r : HashRing) (h : Int) (k : Nat)
    (hne : ¬ r.nodes = []) (hk : ¬ k = 0) :
    getReplicas r h k
      = collectDistinct k [] (walkIDs r.nodes r.nodeMap (ringIdx r.nodes h)) := by
  unfold getReplicas walkIDs
  rw [if_neg (by simp [hne, hk])]
  have hcall := replicasLoop_eq_collect r.nodes r.nodeMap (ringIdx r.nodes h) k
    (r.nodes.length * 2) 0 [] (by omega)
  simpa using hcall

theorem collectDistinct_head? (k : Nat) :
    ∀ (l acc : List String), ¬ acc = [] →
      (collectDistinct k acc l).head? = acc.head? := by
  intro l
  induction l with
  | nil => intro acc _; rfl
  | cons x xs ih =>
    intro acc hne
    simp only [collectDistinct]
    by_cases hl : acc.length < k
    · rw [if_pos hl]
      by_cases hx : x ∈ acc
      · rw [if_pos hx]
        exact ih acc hne
      · rw [if_neg hx]
        rw [ih (acc ++ [x]) (by simp)]
        cases acc with
        | nil => exact absurd rfl hne
        | cons a as => rfl
    · rw [if_neg hl]

theorem collectDistinct_nodup (k : Nat) :
    ∀ (l acc : List String), acc.Nodup → (collectDistinct k acc l).Nodup := by
  intro l
  induction l with
  | nil => intro acc hnd; exact hnd
  | cons x xs ih =>
    intro acc hnd
    simp only [collectDistinct]
    by_cases hl : acc.length < k
    · rw [if_pos hl]
      by_cases hx : x ∈ acc
      · rw [if_pos hx]
        exact ih acc hnd
      · rw [if_neg hx]
        refine ih _ ?_
        rw [List.nodup_append]
        refine ⟨hnd, List.nodup_singleton x, ?_⟩
        intro a ha hax
        rw [List.mem_singleton.mp hax] at ha
        exact hx ha
    · rw [if_neg hl]
      exact hnd

theorem collectDistinct_length (k : Nat) :
    ∀ (l acc : List String), acc.Nodup → acc.length ≤ k →
      (collectDistinct k acc l).length = min k (acc.toFinset ∪ l.toFinset).card := by
  intro l
  induction l with
  | nil =>
    intro acc hnd hle
    show acc.length = min k (acc.toFinset ∪ ([] : List String).toFinset).card
    rw [List.toFinset_nil, Finset.union_empty, List.toFinset_card_of_nodup hnd]
    omega
  | cons x xs ih =>
    intro acc hnd hle
    simp only [collectDistinct]
    by_cases hl : acc.length < k
    · rw [if_pos hl]
      by_cases hx : x ∈ acc
      · rw [if_pos hx]
        rw [ih acc hnd hle]
        congr 2
        rw [List.toFinset_cons, Finset.union_insert, Finset.insert_eq_self.mpr]
        exact Finset.mem_union_left _ (List.mem_toFinset.mpr hx)
      · rw [if_neg hx]
        have hnd' : (acc ++ [x]).Nodup := by
          rw [List.nodup_append]
          refine ⟨hnd, List.nodup_singleton x, ?_⟩
          intro a ha hax
          rw [List.mem_singleton.mp hax] at ha
          exact hx ha
        rw [ih (acc ++ [x]) hnd' (by simpa using hl)]
        congr 2
        rw [List.toFinset_append, List.toFinset_cons]
        ext a
        simp only [Finset.mem_union, List.mem_toFinset, List.toFinset_cons,
          Finset.mem_insert, List.mem_singleton]
        tauto
    · rw [if_neg hl]
      have hacc : acc.length = k := by omega
      have hcard : k ≤ (acc.toFinset ∪ (x :: xs).toFinset).card := by
        calc k = acc.toFinset.card := by
                rw [List.toFinset_card_of_nodup hnd, hacc]
          _ ≤ (acc.toFinset ∪ (x :: xs).toFinset).card :=
                Finset.card_le_card (Finset.subset_union_left)
      omega

/-- Every node of the ring is reached by the `2·|points|` walk, and the walk
reaches nothing else: walked IDs and ring IDs agree as sets. -/
theorem walkIDs_toFinset (nodes : List Int) (nm : List (Int × String)) (idx : Nat)
    (hidx : idx < nodes.length) :
    (walkIDs nodes nm idx).toFinset = (nodes.map (fun hv => mapLookup nm hv)).toFinset := by
  have hn : 0 < nodes.length := by omega
  ext a
  simp only [walkIDs, List.mem_toFinset, List.mem_map]
  constructor
  · rintro ⟨j, _, rfl⟩
    have hlt : (idx + j) % nodes.length < nodes.length := Nat.mod_lt _ hn
    refine ⟨nodes.getD ((idx + j) % nodes.length) 0, ?_, rfl⟩
    rw [List.getD_eq_getElem _ _ hlt]
    exact List.getElem_mem hlt
  · rintro ⟨hv, hmem, rfl⟩
    obtain ⟨t, ht, rfl⟩ := List.getElem_of_mem hmem
    refine ⟨t + nodes.length - idx, ?_, ?_⟩
    · rw [List.mem_range'_1]
      omega
    · have h1 : idx + (t + nodes.length - idx) = t + nodes.length := by omega
      rw [h1, Nat.add_mod_right, Nat.mod_eq_of_lt ht]
      rw [List.getD_eq_getElem _ _ ht]

/-- **C4.**  On a non-empty ring with `k ≥ 1`, `GetReplicas` performs the
clockwise walk from the key's ring position: its first returned ID equals
`GetNode`'s answer (the primary), the returned IDs are distinct, and it
returns fewer than `k` IDs exactly when the ring resolves to fewer than `k`
distinct node IDs (all of which the `2·|points|` walk cap reaches). -/
theorem getReplicas_spec (r : HashRing) (h : Int) (k : Nat)
    (hne : ¬ r.nodes = []) (hk : 1 ≤ k) :
    (getReplicas r h k).head? = some (getNode r h)
    ∧ (getReplicas r h k).Nodup
    ∧ ((getReplicas r h k).length < k ↔
        (r.nodes.map (fun hv => mapLookup r.nodeMap hv)).toFinset.card < k) := by
  have hk0 : ¬ k = 0 := by omega
  have heq := getReplicas_eq_collect r h k hne hk0
  have hidx := ringIdx_lt r.nodes h hne
  refine ⟨?_, ?_, ?_⟩
  · rw [heq]
    have h2n : r.nodes.length * 2 = (r.nodes.length * 2 - 1) + 1 := by
      have := List.length_pos.mpr hne
      omega
    rw [walkIDs, h2n, List.range'_succ, List.map_cons]
    simp only [collectDistinct]
    rw [if_pos (by simpa using hk), if_neg (List.not_mem_nil _), List.nil_append]
    rw [collectDistinct_head? k _ _ (by simp)]
    simp only [List.head?_cons, Nat.add_zero, Nat.zero_add]
    rw [Nat.mod_eq_of_lt hidx]
    unfold getNode
    rw [if_neg hne]
  · rw [heq]
    exact collectDistinct_nodup k _ [] List.nodup_nil
  · rw [heq]
    rw [collectDistinct_length k _ [] List.nodup_nil (by simp)]
    rw [List.toFinset_nil, Finset.empty_union]
    rw [walkIDs_toFinset r.nodes r.nodeMap _ hidx]
    omega

/-- Witness for `getReplicas_spec` on a two-node ring. -/
theorem getReplicas_spec_witness :
    ¬ (HashRing.mk 1 [10, 20] [(10, "a"), (20, "b")]).nodes = []
    ∧ 1 ≤ 2
    ∧ ((getReplicas (HashRing.mk 1 [10, 20] [(10, "a"), (20, "b")]) 15 2).head?
        = some (getNode (HashRing.mk 1 [10, 20] [(10, "a"), (20, "b")]) 15)
      ∧ (getReplicas (HashRing.mk 1 [10, 20] [(10, "a"), (20, "b")]) 15 2).Nodup
      ∧ ((getReplicas (HashRing.mk 1 [10, 20] [(10, "a"), (20, "b")]) 15 2).length < 2 ↔
          ((HashRing.mk 1 [10, 20] [(10, "a"), (20, "b")]).nodes.map
            (fun hv => mapLookup (HashRing.mk 1 [10, 20] [(10, "a"), (20, "b")]).nodeMap hv)
          ).toFinset.card < 2)) :=
  ⟨by decide, by decide,
    getReplicas_spec (HashRing.mk 1 [10, 20] [(10, "a"), (20, "b")]) 15 2 (by decide) (by decide)⟩

/-! ### AddNode collision lemmas -/

theorem mapLookup_mapInsert (nm : List (Int × String)) (h h' : Int) (v : String) :
    mapLookup (mapInsert nm h v) h' = if h' = h then v else mapLookup nm h' := by
  by_cases he : h' = h
  · subst he
    simp [mapLookup, mapInsert]
  · rw [if_neg he]
    unfold mapLookup mapInsert
    rw [List.find?_cons_of_neg _ (by simp; exact fun hh => he hh.symm)]
    have hfilter : (nm.filter (fun p => ¬ p.1 = h)).find? (fun p => p.1 = h')
        = nm.find? (fun p => p.1 = h') := by
      induction nm with
      | nil => rfl
      | cons a as ih =>
        by_cases ha : a.1 = h
        · rw [List.filter_cons_of_neg (by simpa using ha), ih,
            List.find?_cons_of_neg _ (by simp [ha]; exact fun hh => he hh.symm)]
        · rw [List.filter_cons_of_pos (by simpa using ha)]
          by_cases hp : a.1 = h'
          · rw [List.find?_cons_of_pos _ (by simpa using hp),
              List.find?_cons_of_pos _ (by simpa using hp)]
          · rw [List.find?_cons_of_neg _ (by simpa using hp),
              List.find?_cons_of_neg _ (by simpa using hp), ih]
    rw [hfilter]

theorem addPoints_length (hk : String → Int) (x : String) :
    ∀ (n : Nat) (acc : List Int × List (Int × String)),
      (addPoints hk x n acc).1.length = acc.1.length + n := by
  intro n
  induction n with
  | zero => intro acc; rfl
  | succ n ih =>
    intro acc
    simp only [addPoints, List.length_append, List.length_cons, List.length_nil]
    rw [ih]
    omega

theorem addPoints_lookup (hk : String → Int) (x : String) :
    ∀ (n : Nat) (acc : List Int × List (Int × String)) (i : Nat), i < n →
      mapLookup (addPoints hk x n acc).2 (hk (x ++ "#" ++ toString i)) = x := by
  intro n
  induction n with
  | zero => intro acc i hi; omega
  | succ n ih =>
    intro acc i hi
    simp only [addPoints]
    rw [mapLookup_mapInsert]
    by_cases he : hk (x ++ "#" ++ toString i) = hk (x ++ "#" ++ toString n)
    · rw [if_pos he]
    · rw [if_neg he]
      have hin : i < n := by
        rcases Nat.lt_succ_iff_lt_or_eq.mp hi with hlt | heq
        · exact hlt
        · rw [heq] at he
          exact absurd rfl he
      exact ih acc i hin

/-- **C9 counterexample.**  With one virtual point per node and a hash
function sending both `"a#0"` and `"b#0"` to `5`, adding `a` then `b` keeps
both points in the sorted array, but both resolve to `b`: the `nodeMap`
binding for hash `5` was overwritten, so no point resolves to `a` and
`GetReplicas` can never return `a`. -/
theorem ring_collision_counterexample :
    (addNode (fun _ => 5) (addNode (fun _ => 5) (HashRing.mk 1 [] []) "a") "b").nodes = [5, 5]
    ∧ getNode (addNode (fun _ => 5) (addNode (fun _ => 5) (HashRing.mk 1 [] []) "a") "b") 5
        = "b"
    ∧ getReplicas (addNode (fun _ => 5) (addNode (fun _ => 5) (HashRing.mk 1 [] []) "a") "b") 5 2
        = ["b"] := by decide

/-- **C9 (amended).**  `AddNode` keeps every virtual point in the sorted
point array (the array grows by exactly `replicas` entries, collisions
included), but the hash-to-node map keeps only the latest insertion per
hash value: after `AddNode(x)` every point hash contributed by `x` resolves
to `x`, so a colliding earlier point resolves to the later-added node, not
to the node that contributed it. -/
theorem addNode_collision_spec (hk : String → Int) (r : HashRing) (x : String) :
    (addNode hk r x).nodes.length = r.nodes.length + r.replicas
    ∧ ∀ i, i < r.replicas →
        mapLookup (addNode hk r x).nodeMap (hk (x ++ "#" ++ toString i)) = x := by
  constructor
  · unfold addNode
    rw [List.length_insertionSort]
    exact addPoints_length hk x r.replicas (r.nodes, r.nodeMap)
  · intro i hi
    exact addPoints_lookup hk x r.replicas (r.nodes, r.nodeMap) i hi

/-- Witness for `addNode_collision_spec`: adding `x` with two virtual points
onto a ring that already maps hash `7` to `z` re-binds both colliding
hashes to `x`. -/
theorem addNode_collision_spec_witness :
    (addNode (fun _ => 7) (HashRing.mk 2 [7] [(7, "z")]) "x").nodes.length
      = ([7] : List Int).length + 2
    ∧ ∀ i, i < 2 →
        mapLookup (addNode (fun _ => 7) (HashRing.mk 2 [7] [(7, "z")]) "x").nodeMap 7 = "x" :=
  addNode_collision_spec (fun _ => 7) (HashRing.mk 2 [7] [(7, "z")]) "x"

end FluxCache
